import Mathlib

/-!
Verification of the two-tier response cache of this repository.

The subject code is `src/middleware/cache.js` (`CacheManager`: the caching
middleware, key derivation, pattern invalidation, backed by a `node-cache`
memory store) and `src/config/redis.js` (`RedisManager`: the Redis-backed
remote tier whose operations fail soft).

Shallow embedding conventions:
* JSON payload values are the inductive `Json`; JavaScript truthiness is
  `truthy`.
* `JSON.stringify` / `JSON.parse` are the platform's serializer, absent from
  the sources; they are modelled from the spec as `serialize` / `deserialize`
  over `Json` (integer numbers; strings with the common escapes).
* The `node-cache` instance held by `CacheManager` is modelled from the spec
  (`MemCache`): a bounded insertion-ordered store with per-entry TTL and
  oldest-inserted-first eviction at capacity.
* The Redis client is modelled by `RedisState`: a key-value store plus a
  `reachable` flag; an unreachable client makes every client call raise,
  which the `RedisManager` methods catch.
* The middleware `CacheManager.cache` is a function from a request and both
  tier states to an outcome; the places where the JavaScript runtime could
  raise (an unserializable query inside `generateKey`, an internal error
  inside the `try` block) are modelled by the `Faults` record, mirroring the
  position of the `try`/`catch` in the source.
-/

/-- A JSON value: the structured payload type the service caches.
Numbers are modelled as integers. -/
inductive Json where
  | null : Json
  | bool (b : Bool) : Json
  | num (n : Int) : Json
  | str (s : String) : Json
  | arr (elems : List Json) : Json
  | obj (members : List (String × Json)) : Json

/-- JavaScript truthiness of a JSON value: `null`, `false`, `0` and the empty
string are falsy; arrays and objects are always truthy. -/
def truthy : Json → Bool
  | Json.null => false
  | Json.bool b => b
  | Json.num n => decide (n ≠ 0)
  | Json.str s => decide (s ≠ "")
  | Json.arr _ => true
  | Json.obj _ => true

def obrace : Char := '\x7b'
def cbrace : Char := '\x7d'
def bslash : Char := '\\'
def dquote : Char := '\"'

def digitToChar (d : Nat) : Char := Char.ofNat (48 + d)

def isDigitCh (c : Char) : Bool := decide (48 ≤ c.toNat) && decide (c.toNat ≤ 57)

def digitVal (c : Char) : Nat := c.toNat - 48

/-- Decimal digits of `n`, least significant first; the first argument is
fuel making the recursion structural. -/
def natToCharsAux : Nat → Nat → List Char
  | 0, _ => []
  | fuel + 1, n => if n = 0 then [] else digitToChar (n % 10) :: natToCharsAux fuel (n / 10)

/-- Decimal representation of a natural number, most significant digit
first. -/
def natToChars (n : Nat) : List Char :=
  if n = 0 then [digitToChar 0] else (natToCharsAux n n).reverse

/-- Decimal representation of an integer. -/
def intToChars (n : Int) : List Char :=
  if n < 0 then '-' :: natToChars n.natAbs else natToChars n.toNat

/-- Modelled from the spec: the escaping performed by the platform
serializer (`JSON.stringify`, absent from the sources) on one string
character: quote, backslash, newline, tab and carriage return get a
backslash escape, other characters are emitted as themselves. -/
def escapeChar (c : Char) : List Char :=
  if c = dquote then [bslash, dquote]
  else if c = bslash then [bslash, bslash]
  else if c = '\n' then [bslash, 'n']
  else if c = '\t' then [bslash, 't']
  else if c = '\r' then [bslash, 'r']
  else [c]

def escapeChars : List Char → List Char
  | [] => []
  | c :: cs => escapeChar c ++ escapeChars cs

/-- A JSON string literal: quote, escaped content, quote. -/
def strChars (s : String) : List Char :=
  dquote :: escapeChars s.data ++ [dquote]

mutual
/-- Modelled from the spec: the platform serializer `JSON.stringify`
(absent from the sources), restricted to the payload types the service
caches. -/
def jserialize : Json → List Char
  | Json.null => ['n', 'u', 'l', 'l']
  | Json.bool true => ['t', 'r', 'u', 'e']
  | Json.bool false => ['f', 'a', 'l', 's', 'e']
  | Json.num n => intToChars n
  | Json.str s => strChars s
  | Json.arr [] => ['[', ']']
  | Json.arr (x :: xs) => '[' :: (jserialize x ++ arrTailChars xs)
  | Json.obj [] => [obrace, cbrace]
  | Json.obj ((k, v) :: kvs) => obrace :: (strChars k ++ ':' :: jserialize v ++ objTailChars kvs)

/-- Serialization of the remaining elements of a JSON array, including the
closing bracket. -/
def arrTailChars : List Json → List Char
  | [] => [']']
  | y :: ys => ',' :: (jserialize y ++ arrTailChars ys)

/-- Serialization of the remaining members of a JSON object, including the
closing brace. -/
def objTailChars : List (String × Json) → List Char
  | [] => [cbrace]
  | (k, v) :: kvs => ',' :: (strChars k ++ ':' :: jserialize v ++ objTailChars kvs)
end

def unescapeChar (c : Char) : Option Char :=
  if c = dquote then some dquote
  else if c = bslash then some bslash
  else if c = 'n' then some '\n'
  else if c = 't' then some '\t'
  else if c = 'r' then some '\r'
  else none

/-- Worker for parsing a JSON string literal body; the flag records whether
the previous character was an unconsumed backslash. -/
def parseStringAux : Bool → List Char → Option (List Char × List Char)
  | _, [] => none
  | true, e :: cs =>
      match unescapeChar e with
      | some d =>
          match parseStringAux false cs with
          | some (s, r) => some (d :: s, r)
          | none => none
      | none => none
  | false, c :: cs =>
      if c = dquote then some ([], cs)
      else if c = bslash then parseStringAux true cs
      else
        match parseStringAux false cs with
        | some (s, r) => some (c :: s, r)
        | none => none

/-- Parse the body of a JSON string literal after the opening quote,
returning the unescaped content and the characters after the closing
quote. -/
def parseStringRest (cs : List Char) : Option (List Char × List Char) :=
  parseStringAux false cs

/-- Greedily parse decimal digits into an accumulator. -/
def parseDigits : List Char → Nat → Nat × List Char
  | [], acc => (acc, [])
  | c :: cs, acc =>
      if isDigitCh c then parseDigits cs (acc * 10 + digitVal c) else (acc, c :: cs)

mutual
/-- Modelled from the spec: the platform parser `JSON.parse` (absent from
the sources) on the grammar produced by `jserialize`; the first argument is
fuel making the recursion structural. -/
def parseValue : Nat → List Char → Option (Json × List Char)
  | 0, _ => none
  | _ + 1, [] => none
  | fuel + 1, c :: rest =>
      if c = 'n' then
        match rest with
        | 'u' :: 'l' :: 'l' :: r => some (Json.null, r)
        | _ => none
      else if c = 't' then
        match rest with
        | 'r' :: 'u' :: 'e' :: r => some (Json.bool true, r)
        | _ => none
      else if c = 'f' then
        match rest with
        | 'a' :: 'l' :: 's' :: 'e' :: r => some (Json.bool false, r)
        | _ => none
      else if c = dquote then
        match parseStringRest rest with
        | some (s, r) => some (Json.str (String.mk s), r)
        | none => none
      else if c = '[' then
        if rest.head? = some ']' then some (Json.arr [], rest.tail)
        else
          match parseValue fuel rest with
          | some (v, r) =>
              match parseArrTail fuel r with
              | some (vs, r2) => some (Json.arr (v :: vs), r2)
              | none => none
          | none => none
      else if c = obrace then
        if rest.head? = some cbrace then some (Json.obj [], rest.tail)
        else
          match parseMember fuel rest with
          | some (k, v, r) =>
              match parseObjTail fuel r with
              | some (kvs, r2) => some (Json.obj ((k, v) :: kvs), r2)
              | none => none
          | none => none
      else if c = '-' then
        match rest with
        | d :: _ =>
            if isDigitCh d then
              match parseDigits rest 0 with
              | (m, r) => some (Json.num (-(m : Int)), r)
            else none
        | [] => none
      else if isDigitCh c then
        match parseDigits (c :: rest) 0 with
        | (m, r) => some (Json.num (m : Int), r)
      else none

/-- Parse one `"key":value` member of a JSON object. -/
def parseMember : Nat → List Char → Option (String × Json × List Char)
  | 0, _ => none
  | fuel + 1, cs =>
      match cs with
      | c :: rest =>
          if c = dquote then
            match parseStringRest rest with
            | some (k, r) =>
                match r with
                | ':' :: r2 =>
                    match parseValue fuel r2 with
                    | some (v, r3) => some (String.mk k, v, r3)
                    | none => none
                | _ => none
            | none => none
          else none
      | [] => none

/-- Parse the remaining elements of a JSON array after the first one. -/
def parseArrTail : Nat → List Char → Option (List Json × List Char)
  | 0, _ => none
  | fuel + 1, cs =>
      match cs with
      | ']' :: r => some ([], r)
      | ',' :: r =>
          match parseValue fuel r with
          | some (v, r2) =>
              match parseArrTail fuel r2 with
              | some (vs, r3) => some (v :: vs, r3)
              | none => none
          | none => none
      | _ => none

/-- Parse the remaining members of a JSON object after the first one. -/
def parseObjTail : Nat → List Char → Option (List (String × Json) × List Char)
  | 0, _ => none
  | fuel + 1, cs =>
      match cs with
      | c :: r =>
          if c = cbrace then some ([], r)
          else if c = ',' then
            match parseMember fuel r with
            | some (k, v, r2) =>
                match parseObjTail fuel r2 with
                | some (kvs, r3) => some ((k, v) :: kvs, r3)
                | none => none
            | none => none
          else none
      | [] => none
end

/-- Modelled from the spec: `JSON.stringify` on a cacheable payload. -/
def serialize (v : Json) : String := String.mk (jserialize v)

/-- Modelled from the spec: `JSON.parse`; `none` models the thrown
`SyntaxError` on invalid input. -/
def deserialize (s : String) : Option Json :=
  match parseValue s.length s.data with
  | some (v, []) => some v
  | _ => none

mutual
/-- Fuel sufficient for `parseValue` to parse a serialized value. -/
def jsizeF : Json → Nat
  | Json.null => 1
  | Json.bool _ => 1
  | Json.num _ => 1
  | Json.str _ => 1
  | Json.arr [] => 1
  | Json.arr (x :: xs) => 1 + jsizeF x + arrTailSize xs
  | Json.obj [] => 1
  | Json.obj ((_, v) :: kvs) => 2 + jsizeF v + objTailSize kvs

/-- Fuel sufficient for `parseArrTail` on a serialized array tail. -/
def arrTailSize : List Json → Nat
  | [] => 1
  | y :: ys => 1 + jsizeF y + arrTailSize ys

/-- Fuel sufficient for `parseObjTail` on a serialized object tail. -/
def objTailSize : List (String × Json) → Nat
  | [] => 1
  | (_, v) :: kvs => 2 + jsizeF v + objTailSize kvs
end

/-! ## The tier stores and the middleware -/

/-- A LocalTier entry. -/
structure Entry where
  value : Json
  insertedAt : Nat
  ttl : Nat

/-- Modelled from the spec: the `node-cache` store constructed in
`CacheManager`'s constructor (`new NodeCache({stdTTL, maxKeys,
deleteOnExpire})`); the library itself is absent from the sources. A
bounded key-value store; `entries` is in insertion order, oldest first;
on `set` at capacity the oldest-inserted entry is evicted. -/
structure MemCache where
  entries : List (String × Entry)
  maxKeys : Nat

def lookupEntry : List (String × Entry) → String → Option Entry
  | [], _ => none
  | (k, e) :: t, key => if k = key then some e else lookupEntry t key

def replaceEntry : List (String × Entry) → String → Entry → List (String × Entry)
  | [], _, _ => []
  | (k, e) :: t, key, e2 => if k = key then (k, e2) :: t else (k, e) :: replaceEntry t key e2

/-- Modelled from the spec: `memoryCache.get(key)` with lazy expiry — an
entry is expired when `now - insertedAt ≥ ttl`; an expired entry found on
read is treated as absent and removed. Returns the result and the store
after the read. -/
def MemCache.get (m : MemCache) (now : Nat) (key : String) : Option Json × MemCache :=
  match lookupEntry m.entries key with
  | none => (none, m)
  | some e =>
      if now - e.insertedAt ≥ e.ttl then
        (none, ⟨m.entries.filter (fun p => !(p.1 = key : Bool)), m.maxKeys⟩)
      else (some e.value, m)

/-- Modelled from the spec: `memoryCache.set(key, value, ttl)`; replaces an
existing entry in place, otherwise appends, evicting the oldest-inserted
entry first when the store is at capacity. -/
def MemCache.set (m : MemCache) (key : String) (v : Json) (ttl : Nat) (now : Nat) : MemCache :=
  if (lookupEntry m.entries key).isSome then
    ⟨replaceEntry m.entries key ⟨v, now, ttl⟩, m.maxKeys⟩
  else if m.maxKeys ≤ m.entries.length then
    ⟨m.entries.drop 1 ++ [(key, ⟨v, now, ttl⟩)], m.maxKeys⟩
  else
    ⟨m.entries ++ [(key, ⟨v, now, ttl⟩)], m.maxKeys⟩

/-- Modelled from the spec: `memoryCache.del(key)`. -/
def MemCache.del (m : MemCache) (key : String) : MemCache :=
  ⟨m.entries.filter (fun p => !(p.1 = key : Bool)), m.maxKeys⟩

/-- Modelled from the spec: `memoryCache.keys()`. -/
def MemCache.keys (m : MemCache) : List String := m.entries.map Prod.fst

/-- A RemoteTier (Redis) entry: the serialized value and the TTL passed to
`setEx`. -/
structure RedisEntry where
  value : String
  ttl : Nat

/-- The Redis client as seen by `RedisManager`: a shared string store plus a
reachability flag; when `reachable` is `false` every client call raises,
modelling timeouts and connection errors of the backing network store. -/
structure RedisState where
  store : List (String × RedisEntry)
  reachable : Bool

def lookupRedis : List (String × RedisEntry) → String → Option RedisEntry
  | [], _ => none
  | (k, e) :: t, key => if k = key then some e else lookupRedis t key

def upsertRedis : List (String × RedisEntry) → String → RedisEntry → List (String × RedisEntry)
  | [], key, e2 => [(key, e2)]
  | (k, e) :: t, key, e2 => if k = key then (k, e2) :: t else (k, e) :: upsertRedis t key e2

namespace RedisManager

/-- `RedisManager.get` (src/config/redis.js): awaits `client.get(key)` and
returns `value ? JSON.parse(value) : null` inside a `try`; any client or
parse error is caught and `null` is returned. -/
def get (c : RedisState) (key : String) : Option Json :=
  if c.reachable = false then none
  else
    match lookupRedis c.store key with
    | none => none
    | some e => if e.value = "" then none else deserialize e.value

/-- `RedisManager.set` (src/config/redis.js): `JSON.stringify(value)` then
`client.setEx(key, ttlSeconds, serialized)` inside a `try`, returning
`true`; any client error is caught and `false` is returned. -/
def set (c : RedisState) (key : String) (v : Json) (ttlSeconds : Nat) : Bool × RedisState :=
  if c.reachable = false then (false, c)
  else (true, ⟨upsertRedis c.store key ⟨serialize v, ttlSeconds⟩, c.reachable⟩)

/-- `RedisManager.del` (src/config/redis.js): `client.del(key)` inside a
`try`, returning `true`; any client error is caught and `false` is
returned. -/
def del (c : RedisState) (key : String) : Bool × RedisState :=
  if c.reachable = false then (false, c)
  else (true, ⟨c.store.filter (fun p => !(p.1 = key : Bool)), c.reachable⟩)

end RedisManager

/-- An intercepted HTTP request as the middleware sees it: `query` is the
parsed query object (string-valued parameters in the order they appear in
the URL), `user` is the authenticated caller's id when present. -/
structure Request where
  method : String
  originalUrl : String
  query : List (String × String)
  user : Option String

/-- The query object as the JSON value `JSON.stringify` receives. -/
def queryJson (q : List (String × String)) : Json :=
  Json.obj (q.map (fun p => (p.1, Json.str p.2)))

namespace CacheManager

/-- `CacheManager.generateKey` (src/middleware/cache.js):
`api:${method}:${originalUrl}:${JSON.stringify(query)}:${userId}` with
`userId = user ? user.id : 'anonymous'`. -/
def generateKey (req : Request) : String :=
  "api:" ++ req.method ++ ":" ++ req.originalUrl ++ ":"
    ++ serialize (queryJson req.query) ++ ":"
    ++ (match req.user with
        | some u => u
        | none => "anonymous")

/-- Substring test of JavaScript `String.prototype.includes`: does `pat`
start `l`? -/
def startsWithChars : List Char → List Char → Bool
  | _, [] => true
  | [], _ :: _ => false
  | c :: cs, p :: ps => (c = p : Bool) && startsWithChars cs ps

/-- JavaScript `key.includes(pattern)`: `pattern` occurs as a contiguous
substring of `key`. -/
def includesChars : List Char → List Char → Bool
  | [], pat => pat.isEmpty
  | c :: cs, pat => startsWithChars (c :: cs) pat || includesChars cs pat

/-- JavaScript `key.includes(pattern)` on strings. -/
def jsIncludes (key pat : String) : Bool := includesChars key.data pat.data

/-- `CacheManager.invalidatePattern` (src/middleware/cache.js): iterates
over `memoryCache.keys()` and calls `memoryCache.del(key)` for every key
with `key.includes(pattern)`; Redis pattern deletion is left as a TODO, so
the remote store is untouched. -/
def invalidatePattern (mem : MemCache) (redis : RedisState) (pattern : String) :
    MemCache × RedisState :=
  (mem.keys.foldl (fun m k => if jsIncludes k pattern then m.del k else m) mem, redis)

/-- The places where the JavaScript runtime could raise inside the
middleware: `keygen` models `JSON.stringify` throwing on an unserializable
query inside `generateKey` (which runs before the `try` block); `lookup`
models an error raised inside the `try` block. -/
structure Faults where
  keygen : Bool
  lookup : Bool

/-- No fault: the normal run of the middleware. -/
def noFaults : Faults := ⟨false, false⟩

/-- Observable outcome of one middleware invocation. -/
inductive MWOutcome where
  | respond (body : Json) (xCache : String)
  | passNext
  | nextWrapped (key : String) (xCache : String)
  | raise

/-- Result of one middleware invocation: the outcome, both tier states
afterwards, and how many times the remote tier was queried. -/
structure MWResult where
  outcome : MWOutcome
  mem : MemCache
  redis : RedisState
  remoteGets : Nat

/-- `CacheManager.cache(ttl, useMemory)` (src/middleware/cache.js), one
request: non-`GET` requests call `next()` at once; `generateKey` runs
before the `try` block, so a fault there propagates; inside the `try`, a
memory hit answers `HIT-MEMORY` without touching Redis, then a Redis hit
backfills the memory tier and answers `HIT-REDIS`, otherwise the response
is marked `MISS` and `res.json` is wrapped to store under `key`; any error
inside the `try` is caught and `next()` is called. Hit checks are
JavaScript truthiness tests on the retrieved value. -/
def cache (ttl : Nat) (useMemory : Bool) (f : Faults) (req : Request)
    (mem : MemCache) (redis : RedisState) (now : Nat) : MWResult :=
  if req.method ≠ "GET" then ⟨MWOutcome.passNext, mem, redis, 0⟩
  else if f.keygen then ⟨MWOutcome.raise, mem, redis, 0⟩
  else
    let key := generateKey req
    if f.lookup then ⟨MWOutcome.passNext, mem, redis, 0⟩
    else
      let mres := if useMemory then mem.get now key else (none, mem)
      match mres.1 with
      | some v =>
          if truthy v then ⟨MWOutcome.respond v "HIT-MEMORY", mres.2, redis, 0⟩
          else redisStep ttl useMemory key mres.2 redis now
      | none => redisStep ttl useMemory key mres.2 redis now

where
  /-- The Redis level of the lookup and the miss path. -/
  redisStep (ttl : Nat) (useMemory : Bool) (key : String)
      (mem : MemCache) (redis : RedisState) (now : Nat) : MWResult :=
    match RedisManager.get redis key with
    | some w =>
        if truthy w then
          ⟨MWOutcome.respond w "HIT-REDIS",
            if useMemory then mem.set key w ttl now else mem, redis, 1⟩
        else ⟨MWOutcome.nextWrapped key "MISS", mem, redis, 1⟩
    | none => ⟨MWOutcome.nextWrapped key "MISS", mem, redis, 1⟩

/-- The wrapped `res.json(data)` on the miss path: stores the emitted
payload in the memory tier (when enabled) and through `RedisManager.set`,
then emits the original response unchanged. -/
def storeOnEmit (key : String) (ttl : Nat) (useMemory : Bool) (data : Json)
    (mem : MemCache) (redis : RedisState) (now : Nat) : MemCache × RedisState :=
  ((if useMemory then mem.set key data ttl now else mem),
    (RedisManager.set redis key data ttl).2)

end CacheManager


/-! ## Witness fixtures -/

/-- Witness request: an authenticated GET. -/
def reqW : Request := ⟨"GET", "/api/users?page=1", [("page", "1")], some "u42"⟩

/-- The cache key of `reqW`. -/
def keyW : String := CacheManager.generateKey reqW

/-- Witness memory tier holding `keyW`. -/
def memW : MemCache := ⟨[(keyW, ⟨Json.str "local", 0, 300⟩)], 1000⟩

/-- Witness remote tier holding `keyW` with a different value. -/
def redisW : RedisState := ⟨[(keyW, ⟨serialize (Json.str "remote"), 300⟩)], true⟩


/-- Witness memory tier not holding `keyW`. -/
def memW2 : MemCache := ⟨[], 1000⟩


/-- Witness stores holding falsy payloads under `keyW`. -/
def memWF : MemCache := ⟨[(keyW, ⟨Json.null, 0, 300⟩)], 1000⟩

/-- Witness remote tier holding the serialization of `0` under `keyW`. -/
def redisWF : RedisState := ⟨[(keyW, ⟨serialize (Json.num 0), 300⟩)], true⟩


/-- An unreachable remote tier for the soft-failure witness. -/
def redisDown : RedisState := ⟨[(keyW, ⟨serialize (Json.str "stale"), 300⟩)], false⟩


/-- Two requests carrying the same query parameters in different order. -/
def reqQ1 : Request := ⟨"GET", "/products?a=1&b=2", [("a", "1"), ("b", "2")], none⟩

/-- Same method, path, parameter set and caller as `reqQ1`, parameters
supplied in the other order. -/
def reqQ2 : Request := ⟨"GET", "/products?b=2&a=1", [("b", "2"), ("a", "1")], none⟩


/-! ## Proofs -/

/-- `true` when the list does not continue a decimal number, so greedy digit
parsing stops exactly here. -/
def numStop : List Char → Bool
  | [] => true
  | c :: _ => !isDigitCh c

theorem isDigitCh_digitToChar (d : Nat) (hd : d < 10) : isDigitCh (digitToChar d) = true := by
  interval_cases d <;> decide

theorem digitVal_digitToChar (d : Nat) (hd : d < 10) : digitVal (digitToChar d) = d := by
  interval_cases d <;> decide

theorem parseDigits_stop (l : List Char) (acc : Nat) (h : numStop l = true) :
    parseDigits l acc = (acc, l) := by
  cases l with
  | nil => rfl
  | cons c cs =>
      simp only [numStop, Bool.not_eq_true'] at h
      simp [parseDigits, h]

theorem parseDigits_append (ds : List Nat) (acc : Nat) (rest : List Char)
    (hds : ∀ d ∈ ds, d < 10) (hrest : numStop rest = true) :
    parseDigits (ds.map digitToChar ++ rest) acc =
      (ds.foldl (fun a d => a * 10 + d) acc, rest) := by
  induction ds generalizing acc with
  | nil => simpa using parseDigits_stop rest acc hrest
  | cons d ds ih =>
      have hd : d < 10 := hds d (List.mem_cons_self _ _)
      simp only [List.map_cons, List.cons_append, parseDigits,
        isDigitCh_digitToChar d hd, if_true, digitVal_digitToChar d hd, List.foldl_cons]
      exact ih _ (fun x hx => hds x (List.mem_cons_of_mem _ hx))

theorem foldl_mul_add_reverse (L : List Nat) (acc : Nat) :
    L.reverse.foldl (fun a d => a * 10 + d) acc = acc * 10 ^ L.length + Nat.ofDigits 10 L := by
  induction L generalizing acc with
  | nil => simp [Nat.ofDigits]
  | cons d L ih =>
      simp only [List.reverse_cons, List.foldl_append, List.foldl_cons, List.foldl_nil, ih,
        List.length_cons, Nat.ofDigits_cons, pow_succ]
      ring

theorem natToCharsAux_eq (fuel : Nat) : ∀ n, n ≤ fuel →
    natToCharsAux fuel n = (Nat.digits 10 n).map digitToChar := by
  induction fuel with
  | zero =>
      intro n hn
      interval_cases n
      simp [natToCharsAux]
  | succ fuel ih =>
      intro n hn
      by_cases h0 : n = 0
      · subst h0; simp [natToCharsAux]
      · have hpos : 0 < n := Nat.pos_of_ne_zero h0
        have hdiv : n / 10 ≤ fuel := by
          have := Nat.div_lt_self hpos (by norm_num : 1 < 10)
          omega
        rw [natToCharsAux, if_neg h0, ih _ hdiv,
          Nat.digits_def' (by norm_num : 1 < 10) hpos, List.map_cons]

theorem natToChars_eq (n : Nat) (h0 : n ≠ 0) :
    natToChars n = ((Nat.digits 10 n).reverse).map digitToChar := by
  rw [natToChars, if_neg h0, natToCharsAux_eq n n le_rfl, List.map_reverse]

theorem natToChars_all_digits (n : Nat) : ∀ c ∈ natToChars n, isDigitCh c = true := by
  by_cases h0 : n = 0
  · subst h0
    intro c hc
    simp [natToChars] at hc
    subst hc; decide
  · rw [natToChars_eq n h0]
    intro c hc
    obtain ⟨d, hd, rfl⟩ := List.mem_map.mp hc
    exact isDigitCh_digitToChar d
      (Nat.digits_lt_base (by norm_num) (List.mem_reverse.mp hd))

theorem natToChars_ne_nil (n : Nat) : natToChars n ≠ [] := by
  by_cases h0 : n = 0
  · subst h0; simp [natToChars]
  · rw [natToChars_eq n h0]
    simp [Nat.digits_ne_nil_iff_ne_zero.mpr h0]

theorem parseDigits_natToChars (n : Nat) (rest : List Char) (hrest : numStop rest = true) :
    parseDigits (natToChars n ++ rest) 0 = (n, rest) := by
  by_cases h0 : n = 0
  · subst h0
    simp only [natToChars, if_pos rfl, List.singleton_append, parseDigits]
    norm_num [show isDigitCh (digitToChar 0) = true from by decide,
      show digitVal (digitToChar 0) = 0 from by decide]
    exact parseDigits_stop rest 0 hrest
  · rw [natToChars_eq n h0,
      parseDigits_append _ 0 rest
        (fun d hd => Nat.digits_lt_base (by norm_num) (List.mem_reverse.mp hd)) hrest,
      foldl_mul_add_reverse]
    simp [Nat.ofDigits_digits]

theorem escapeChar_cases (c : Char) :
    (∃ e, escapeChar c = [bslash, e] ∧ unescapeChar e = some c) ∨
    (escapeChar c = [c] ∧ c ≠ dquote ∧ c ≠ bslash) := by
  unfold escapeChar
  split_ifs with h1 h2 h3 h4 h5
  · exact Or.inl ⟨dquote, rfl, by subst h1; decide⟩
  · exact Or.inl ⟨bslash, rfl, by subst h2; decide⟩
  · exact Or.inl ⟨'n', rfl, by subst h3; decide⟩
  · exact Or.inl ⟨'t', rfl, by subst h4; decide⟩
  · exact Or.inl ⟨'r', rfl, by subst h5; decide⟩
  · exact Or.inr ⟨rfl, h1, h2⟩

theorem parseStringAux_cons_other (c : Char) (cs : List Char)
    (h1 : c ≠ dquote) (h2 : c ≠ bslash) :
    parseStringAux false (c :: cs) =
      (match parseStringAux false cs with
       | some (s, r) => some (c :: s, r)
       | none => none) := by
  rw [parseStringAux, if_neg h1, if_neg h2]

theorem parseStringRest_escape (s : List Char) (rest : List Char) :
    parseStringRest (escapeChars s ++ dquote :: rest) = some (s, rest) := by
  rw [parseStringRest]
  induction s with
  | nil => rfl
  | cons c cs ih =>
      rcases escapeChar_cases c with ⟨e, he, hu⟩ | ⟨he, h1, h2⟩
      · have h3 : escapeChars (c :: cs) ++ dquote :: rest
            = bslash :: e :: (escapeChars cs ++ dquote :: rest) := by
          simp [escapeChars, he]
        rw [h3,
          show parseStringAux false (bslash :: e :: (escapeChars cs ++ dquote :: rest))
              = parseStringAux true (e :: (escapeChars cs ++ dquote :: rest)) from rfl,
          show parseStringAux true (e :: (escapeChars cs ++ dquote :: rest))
              = (match unescapeChar e with
                 | some d =>
                     match parseStringAux false (escapeChars cs ++ dquote :: rest) with
                     | some (s, r) => some (d :: s, r)
                     | none => none
                 | none => none) from rfl,
          hu, ih]
      · have h3 : escapeChars (c :: cs) ++ dquote :: rest
            = c :: (escapeChars cs ++ dquote :: rest) := by
          simp [escapeChars, he]
        rw [h3, parseStringAux_cons_other c _ h1 h2, ih]

theorem isDigitCh_ne (c : Char) (h : isDigitCh c = true) :
    c ≠ 'n' ∧ c ≠ 't' ∧ c ≠ 'f' ∧ c ≠ dquote ∧ c ≠ '[' ∧ c ≠ obrace ∧ c ≠ '-' ∧ c ≠ ']' := by
  refine ⟨?_, ?_, ?_, ?_, ?_, ?_, ?_, ?_⟩ <;> rintro rfl <;> revert h <;> decide

theorem jserialize_head (v : Json) : ∃ c tl, jserialize v = c :: tl ∧ c ≠ ']' := by
  cases v with
  | null => exact ⟨'n', _, rfl, by decide⟩
  | bool b => cases b
              · exact ⟨'f', _, rfl, by decide⟩
              · exact ⟨'t', _, rfl, by decide⟩
  | num n =>
      rw [show jserialize (Json.num n) = intToChars n from rfl, intToChars]
      by_cases hneg : n < 0
      · exact ⟨'-', _, by rw [if_pos hneg], by decide⟩
      · rw [if_neg hneg]
        cases hn : natToChars n.toNat with
        | nil => exact absurd hn (natToChars_ne_nil _)
        | cons c tl =>
            refine ⟨c, tl, rfl, ?_⟩
            have := natToChars_all_digits n.toNat c (by rw [hn]; exact List.mem_cons_self _ _)
            exact (isDigitCh_ne c this).2.2.2.2.2.2.2
  | str s => exact ⟨dquote, _, rfl, by decide⟩
  | arr elems => cases elems
                 · exact ⟨'[', _, rfl, by decide⟩
                 · exact ⟨'[', _, rfl, by decide⟩
  | obj members =>
      cases members with
      | nil => exact ⟨obrace, _, rfl, by decide⟩
      | cons kv kvs =>
          exact ⟨obrace, _, by rw [show jserialize (Json.obj (kv :: kvs)) =
            obrace :: (strChars kv.1 ++ ':' :: jserialize kv.2 ++ objTailChars kvs) from by
              cases kv; rfl], by decide⟩

theorem numStop_arrTail (xs : List Json) (l : List Char) :
    numStop (arrTailChars xs ++ l) = true := by
  cases xs <;> simp [arrTailChars, numStop, isDigitCh]

theorem numStop_objTail (kvs : List (String × Json)) (l : List Char) :
    numStop (objTailChars kvs ++ l) = true := by
  cases kvs with
  | nil => simp [objTailChars, numStop, isDigitCh, cbrace]
  | cons kv t => cases kv; simp [objTailChars, numStop, isDigitCh]

theorem String.mk_data (s : String) : String.mk s.data = s := rfl

theorem natToChars_shape (m : Nat) :
    ∃ (d : Nat) (ds : List Nat), natToChars m = digitToChar d :: (ds.map digitToChar) ∧ d < 10 := by
  by_cases h0 : m = 0
  · exact ⟨0, [], by subst h0; rfl, by norm_num⟩
  · rw [natToChars_eq m h0]
    cases hL : (Nat.digits 10 m).reverse with
    | nil =>
        exact absurd (List.reverse_eq_nil_iff.mp hL)
          (Nat.digits_ne_nil_iff_ne_zero.mpr h0)
    | cons d ds =>
        refine ⟨d, ds, List.map_cons _ _ _, ?_⟩
        exact Nat.digits_lt_base (by norm_num)
          (List.mem_reverse.mp (by rw [hL]; exact List.mem_cons_self _ _))

theorem parseValue_natNum (fuel : Nat) (m : Nat) (rest : List Char)
    (hstop : numStop rest = true) :
    parseValue (fuel + 1) (natToChars m ++ rest) = some (Json.num (m : Int), rest) := by
  obtain ⟨d, ds, hshape, hd⟩ := natToChars_shape m
  have key : ∀ X, parseValue (fuel + 1) (digitToChar d :: X) =
      (match parseDigits (digitToChar d :: X) 0 with
       | (m2, r) => some (Json.num (m2 : Int), r)) := by
    interval_cases d <;> exact fun X => rfl
  rw [hshape, List.cons_append, key, ← List.cons_append, ← hshape,
    parseDigits_natToChars m rest hstop]

theorem parseValue_negNum (fuel : Nat) (m : Nat) (rest : List Char)
    (hstop : numStop rest = true) :
    parseValue (fuel + 1) ('-' :: (natToChars m ++ rest)) = some (Json.num (-(m : Int)), rest) := by
  obtain ⟨d, ds, hshape, hd⟩ := natToChars_shape m
  have key : ∀ X, parseValue (fuel + 1) ('-' :: digitToChar d :: X) =
      (if isDigitCh (digitToChar d) then
        (match parseDigits (digitToChar d :: X) 0 with
         | (m2, r) => some (Json.num (-(m2 : Int)), r))
       else none) := by
    interval_cases d <;> exact fun X => rfl
  rw [hshape, List.cons_append, key, if_pos (isDigitCh_digitToChar d hd),
    ← List.cons_append, ← hshape, parseDigits_natToChars m rest hstop]

theorem jsizeF_pos (v : Json) : 0 < jsizeF v := by
  cases v with
  | null => exact Nat.one_pos
  | bool b => cases b <;> exact Nat.one_pos
  | num n => exact Nat.one_pos
  | str s => exact Nat.one_pos
  | arr es =>
      cases es with
      | nil => exact Nat.one_pos
      | cons x xs =>
          rw [show jsizeF (Json.arr (x :: xs)) = 1 + jsizeF x + arrTailSize xs from rfl]
          omega
  | obj ms =>
      cases ms with
      | nil => exact Nat.one_pos
      | cons kv t =>
          obtain ⟨k, v⟩ := kv
          rw [show jsizeF (Json.obj ((k, v) :: t)) = 2 + jsizeF v + objTailSize t from rfl]
          omega

theorem arrTailSize_pos (xs : List Json) : 0 < arrTailSize xs := by
  cases xs with
  | nil => exact Nat.one_pos
  | cons y ys =>
      rw [show arrTailSize (y :: ys) = 1 + jsizeF y + arrTailSize ys from rfl]
      omega

theorem objTailSize_pos (kvs : List (String × Json)) : 0 < objTailSize kvs := by
  cases kvs with
  | nil => exact Nat.one_pos
  | cons kv t =>
      obtain ⟨k, v⟩ := kv
      rw [show objTailSize ((k, v) :: t) = 2 + jsizeF v + objTailSize t from rfl]
      omega

theorem parse_serialize : ∀ fuel : Nat,
    (∀ v rest, jsizeF v ≤ fuel → numStop rest = true →
        parseValue fuel (jserialize v ++ rest) = some (v, rest)) ∧
    (∀ k v rest, 1 + jsizeF v ≤ fuel → numStop rest = true →
        parseMember fuel (strChars k ++ (':' :: (jserialize v ++ rest))) = some (k, v, rest)) ∧
    (∀ xs rest, arrTailSize xs ≤ fuel →
        parseArrTail fuel (arrTailChars xs ++ rest) = some (xs, rest)) ∧
    (∀ kvs rest, objTailSize kvs ≤ fuel →
        parseObjTail fuel (objTailChars kvs ++ rest) = some (kvs, rest)) := by
  intro fuel
  induction fuel with
  | zero =>
      refine ⟨?_, ?_, ?_, ?_⟩
      · intro v rest hsz _; have := jsizeF_pos v; omega
      · intro k v rest hsz _; have := jsizeF_pos v; omega
      · intro xs rest hsz; have := arrTailSize_pos xs; omega
      · intro kvs rest hsz; have := objTailSize_pos kvs; omega
  | succ fuel ih =>
      obtain ⟨ihA, ihM, ihB, ihC⟩ := ih
      refine ⟨?_, ?_, ?_, ?_⟩
      · intro v rest hsz hstop
        cases v with
        | null => rfl
        | bool b => cases b <;> rfl
        | num n =>
            by_cases hneg : n < 0
            · have h1 : jserialize (Json.num n) = '-' :: natToChars n.natAbs := by
                show intToChars n = _
                simp only [intToChars, if_pos hneg]
              have h2 : -((n.natAbs : Int)) = n := by omega
              rw [h1, List.cons_append, parseValue_negNum fuel n.natAbs rest hstop, h2]
            · have h1 : jserialize (Json.num n) = natToChars n.toNat := by
                show intToChars n = _
                simp only [intToChars, if_neg hneg]
              have h2 : ((n.toNat : Int)) = n := by omega
              rw [h1, parseValue_natNum fuel n.toNat rest hstop, h2]
        | str s =>
            have h1 : jserialize (Json.str s) ++ rest
                = dquote :: (escapeChars s.data ++ (dquote :: rest)) := by
              show strChars s ++ rest = _
              simp [strChars]
            rw [h1,
              show parseValue (fuel + 1) (dquote :: (escapeChars s.data ++ (dquote :: rest)))
                = (match parseStringRest (escapeChars s.data ++ (dquote :: rest)) with
                   | some (s2, r) => some (Json.str (String.mk s2), r)
                   | none => none) from rfl,
              parseStringRest_escape]
        | arr es =>
            cases es with
            | nil => rfl
            | cons x xs =>
                rw [show jsizeF (Json.arr (x :: xs)) = 1 + jsizeF x + arrTailSize xs from rfl] at hsz
                obtain ⟨c, tl, hser, hc⟩ := jserialize_head x
                have h1 : jserialize (Json.arr (x :: xs)) ++ rest
                    = '[' :: (jserialize x ++ (arrTailChars xs ++ rest)) := by
                  show ('[' :: (jserialize x ++ arrTailChars xs)) ++ rest = _
                  simp
                rw [h1,
                  show parseValue (fuel + 1) ('[' :: (jserialize x ++ (arrTailChars xs ++ rest)))
                    = (if (jserialize x ++ (arrTailChars xs ++ rest)).head? = some ']' then
                        some (Json.arr [], (jserialize x ++ (arrTailChars xs ++ rest)).tail)
                      else
                        match parseValue fuel (jserialize x ++ (arrTailChars xs ++ rest)) with
                        | some (v, r) =>
                            match parseArrTail fuel r with
                            | some (vs, r2) => some (Json.arr (v :: vs), r2)
                            | none => none
                        | none => none) from rfl,
                  if_neg (by rw [hser, List.cons_append]; simp [hc]),
                  ihA x _ (by omega) (numStop_arrTail xs rest)]
                simp [ihB xs rest (by omega)]
        | obj ms =>
            cases ms with
            | nil => rfl
            | cons kv t =>
                obtain ⟨k, v⟩ := kv
                rw [show jsizeF (Json.obj ((k, v) :: t)) = 2 + jsizeF v + objTailSize t from rfl] at hsz
                have h1 : jserialize (Json.obj ((k, v) :: t)) ++ rest
                    = obrace :: (strChars k ++ (':' :: (jserialize v ++ (objTailChars t ++ rest)))) := by
                  show (obrace :: (strChars k ++ ':' :: jserialize v ++ objTailChars t)) ++ rest = _
                  simp
                rw [h1,
                  show parseValue (fuel + 1)
                      (obrace :: (strChars k ++ (':' :: (jserialize v ++ (objTailChars t ++ rest)))))
                    = (if (strChars k ++ (':' :: (jserialize v ++ (objTailChars t ++ rest)))).head?
                          = some cbrace then
                        some (Json.obj [],
                          (strChars k ++ (':' :: (jserialize v ++ (objTailChars t ++ rest)))).tail)
                      else
                        match parseMember fuel
                            (strChars k ++ (':' :: (jserialize v ++ (objTailChars t ++ rest)))) with
                        | some (k2, v2, r) =>
                            match parseObjTail fuel r with
                            | some (kvs, r2) => some (Json.obj ((k2, v2) :: kvs), r2)
                            | none => none
                        | none => none) from rfl,
                  if_neg (by simp [strChars, dquote, cbrace]),
                  ihM k v _ (by omega) (numStop_objTail t rest)]
                simp [ihC t rest (by omega)]
      · intro k v rest hsz hstop
        have h1 : strChars k ++ (':' :: (jserialize v ++ rest))
            = dquote :: (escapeChars k.data ++ (dquote :: (':' :: (jserialize v ++ rest)))) := by
          show (dquote :: (escapeChars k.data ++ [dquote])) ++ _ = _
          simp
        rw [h1,
          show parseMember (fuel + 1)
              (dquote :: (escapeChars k.data ++ (dquote :: (':' :: (jserialize v ++ rest)))))
            = (match parseStringRest (escapeChars k.data ++ (dquote :: (':' :: (jserialize v ++ rest)))) with
               | some (k2, r) =>
                  match r with
                  | ':' :: r2 =>
                      match parseValue fuel r2 with
                      | some (v2, r3) => some (String.mk k2, v2, r3)
                      | none => none
                  | _ => none
               | none => none) from rfl,
          parseStringRest_escape]
        simp [ihA v rest (by omega) hstop, String.mk_data]
      · intro xs rest hsz
        cases xs with
        | nil => rfl
        | cons y ys =>
            rw [show arrTailSize (y :: ys) = 1 + jsizeF y + arrTailSize ys from rfl] at hsz
            have h1 : arrTailChars (y :: ys) ++ rest
                = ',' :: (jserialize y ++ (arrTailChars ys ++ rest)) := by
              show (',' :: (jserialize y ++ arrTailChars ys)) ++ rest = _
              simp
            rw [h1,
              show parseArrTail (fuel + 1) (',' :: (jserialize y ++ (arrTailChars ys ++ rest)))
                = (match parseValue fuel (jserialize y ++ (arrTailChars ys ++ rest)) with
                   | some (v, r2) =>
                      match parseArrTail fuel r2 with
                      | some (vs, r3) => some (v :: vs, r3)
                      | none => none
                   | none => none) from rfl,
              ihA y _ (by omega) (numStop_arrTail ys rest)]
            simp [ihB ys rest (by omega)]
      · intro kvs rest hsz
        cases kvs with
        | nil => rfl
        | cons kv t =>
            obtain ⟨k, v⟩ := kv
            rw [show objTailSize ((k, v) :: t) = 2 + jsizeF v + objTailSize t from rfl] at hsz
            have h1 : objTailChars ((k, v) :: t) ++ rest
                = ',' :: (strChars k ++ (':' :: (jserialize v ++ (objTailChars t ++ rest)))) := by
              show (',' :: (strChars k ++ ':' :: jserialize v ++ objTailChars t)) ++ rest = _
              simp
            rw [h1,
              show parseObjTail (fuel + 1)
                  (',' :: (strChars k ++ (':' :: (jserialize v ++ (objTailChars t ++ rest)))))
                = (match parseMember fuel
                      (strChars k ++ (':' :: (jserialize v ++ (objTailChars t ++ rest)))) with
                   | some (k2, v2, r2) =>
                      match parseObjTail fuel r2 with
                      | some (kvs2, r3) => some ((k2, v2) :: kvs2, r3)
                      | none => none
                   | none => none) from rfl,
              ihM k v _ (by omega) (numStop_objTail t rest)]
            simp [ihC t rest (by omega)]

mutual
def jsize_le_length : (v : Json) → jsizeF v ≤ (jserialize v).length
  | Json.null => by decide
  | Json.bool b => by cases b <;> decide
  | Json.num n => by
      rw [show jsizeF (Json.num n) = 1 from rfl,
        show jserialize (Json.num n) = intToChars n from rfl, intToChars]
      split_ifs
      · simp
      · exact List.length_pos.mpr (natToChars_ne_nil _)
  | Json.str s => by
      rw [show jsizeF (Json.str s) = 1 from rfl,
        show jserialize (Json.str s) = strChars s from rfl]
      simp [strChars]
  | Json.arr [] => by decide
  | Json.arr (x :: xs) => by
      have h1 := jsize_le_length x
      have h2 := arrTail_le_length xs
      rw [show jsizeF (Json.arr (x :: xs)) = 1 + jsizeF x + arrTailSize xs from rfl,
        show jserialize (Json.arr (x :: xs)) = '[' :: (jserialize x ++ arrTailChars xs) from rfl]
      simp only [List.length_cons, List.length_append]
      omega
  | Json.obj [] => by decide
  | Json.obj ((k, v) :: t) => by
      have h1 := jsize_le_length v
      have h2 := objTail_le_length t
      have h3 : 2 ≤ (strChars k).length := by simp [strChars]
      rw [show jsizeF (Json.obj ((k, v) :: t)) = 2 + jsizeF v + objTailSize t from rfl,
        show jserialize (Json.obj ((k, v) :: t))
          = obrace :: (strChars k ++ ':' :: jserialize v ++ objTailChars t) from rfl]
      simp only [List.length_cons, List.length_append]
      omega

def arrTail_le_length : (xs : List Json) → arrTailSize xs ≤ (arrTailChars xs).length
  | [] => by decide
  | y :: ys => by
      have h1 := jsize_le_length y
      have h2 := arrTail_le_length ys
      rw [show arrTailSize (y :: ys) = 1 + jsizeF y + arrTailSize ys from rfl,
        show arrTailChars (y :: ys) = ',' :: (jserialize y ++ arrTailChars ys) from rfl]
      simp only [List.length_cons, List.length_append]
      omega

def objTail_le_length : (kvs : List (String × Json)) → objTailSize kvs ≤ (objTailChars kvs).length
  | [] => by decide
  | (k, v) :: t => by
      have h1 := jsize_le_length v
      have h2 := objTail_le_length t
      have h3 : 2 ≤ (strChars k).length := by simp [strChars]
      rw [show objTailSize ((k, v) :: t) = 2 + jsizeF v + objTailSize t from rfl,
        show objTailChars ((k, v) :: t)
          = ',' :: (strChars k ++ ':' :: jserialize v ++ objTailChars t) from rfl]
      simp only [List.length_cons, List.length_append]
      omega
end

/-- C8: serialization round trip — for every JSON payload value `v`,
deserializing the serialization of `v` yields `v` again, so values
round-trip losslessly across the process boundary of the remote tier. -/
theorem deserialize_serialize (v : Json) : deserialize (serialize v) = some v := by
  have hrt : parseValue (jserialize v).length (jserialize v) = some (v, []) := by
    have h := (parse_serialize (jserialize v).length).1 v [] (jsize_le_length v) rfl
    simpa using h
  simp only [deserialize,
    show (serialize v).length = (jserialize v).length from rfl,
    show (serialize v).data = jserialize v from rfl, hrt]

/-! ## Store lemmas -/

theorem lookupEntry_eq_none_iff (l : List (String × Entry)) (key : String) :
    lookupEntry l key = none ↔ key ∉ l.map Prod.fst := by
  induction l with
  | nil => simp [lookupEntry]
  | cons q t ih =>
      obtain ⟨k, e⟩ := q
      by_cases hk : k = key
      · subst hk
        simp [lookupEntry]
      · simp [lookupEntry, hk, ih, Ne.symm hk]

theorem lookupEntry_append_none (l : List (String × Entry)) (key : String) (e2 : Entry)
    (h : lookupEntry l key = none) :
    lookupEntry (l ++ [(key, e2)]) key = some e2 := by
  induction l with
  | nil => simp [lookupEntry]
  | cons q t ih =>
      obtain ⟨k, e⟩ := q
      rw [lookupEntry] at h
      by_cases hk : k = key
      · rw [if_pos hk] at h; exact absurd h (by simp)
      · rw [if_neg hk] at h
        simpa [lookupEntry, hk] using ih h

theorem lookupEntry_drop_none (l : List (String × Entry)) (key : String)
    (h : lookupEntry l key = none) :
    lookupEntry (l.drop 1) key = none := by
  cases l with
  | nil => simpa using h
  | cons q t =>
      obtain ⟨k, e⟩ := q
      rw [lookupEntry] at h
      by_cases hk : k = key
      · rw [if_pos hk] at h; exact absurd h (by simp)
      · rw [if_neg hk] at h; simpa using h

theorem lookupEntry_replace_isSome (l : List (String × Entry)) (key : String) (e2 : Entry)
    (h : (lookupEntry l key).isSome) :
    lookupEntry (replaceEntry l key e2) key = some e2 := by
  induction l with
  | nil => simp [lookupEntry] at h
  | cons q t ih =>
      obtain ⟨k, e⟩ := q
      by_cases hk : k = key
      · simp [replaceEntry, hk, lookupEntry]
      · rw [lookupEntry, if_neg hk] at h
        simp [replaceEntry, hk, lookupEntry, ih h]

/-- After `set`, a `get` at the same instant with a positive TTL serves the
just-stored value and leaves the store unchanged. -/
theorem MemCache.get_set (m : MemCache) (key : String) (v : Json) (ttl now : Nat)
    (ht : 0 < ttl) :
    (m.set key v ttl now).get now key = (some v, m.set key v ttl now) := by
  have hexp : ¬(now - now ≥ ttl) := by omega
  rw [MemCache.set]
  by_cases hs : (lookupEntry m.entries key).isSome
  · rw [if_pos hs, MemCache.get]
    rw [lookupEntry_replace_isSome m.entries key ⟨v, now, ttl⟩ hs]
    simp only [if_neg hexp]
  · rw [if_neg hs]
    have hnone : lookupEntry m.entries key = none :=
      Option.not_isSome_iff_eq_none.mp hs
    by_cases hcap : m.maxKeys ≤ m.entries.length
    · rw [if_pos hcap, MemCache.get]
      rw [lookupEntry_append_none _ key _ (lookupEntry_drop_none _ key hnone)]
      simp only [if_neg hexp]
    · rw [if_neg hcap, MemCache.get]
      rw [lookupEntry_append_none _ key _ hnone]
      simp only [if_neg hexp]

/-! ## Claim theorems: middleware behavior -/

/-- C9: a request whose method is not in the cacheable set (any non-GET
request) passes through untouched: the middleware calls `next()` with no
cache interaction — both tier states unchanged, no remote query, no
response annotation and no wrapping of the response emission. -/
theorem non_get_passthrough (ttl : Nat) (useMemory : Bool) (f : CacheManager.Faults)
    (req : Request) (mem : MemCache) (redis : RedisState) (now : Nat)
    (hm : req.method ≠ "GET") :
    CacheManager.cache ttl useMemory f req mem redis now
      = ⟨CacheManager.MWOutcome.passNext, mem, redis, 0⟩ := by
  rw [CacheManager.cache, if_pos hm]

theorem non_get_passthrough_witness :
    (⟨"POST", "/api/users", [], none⟩ : Request).method ≠ "GET" ∧
    CacheManager.cache 300 true CacheManager.noFaults ⟨"POST", "/api/users", [], none⟩
        ⟨[], 1000⟩ ⟨[], true⟩ 0
      = ⟨CacheManager.MWOutcome.passNext, ⟨[], 1000⟩, ⟨[], true⟩, 0⟩ :=
  ⟨by decide, non_get_passthrough 300 true CacheManager.noFaults _ _ _ 0 (by decide)⟩

/-- C3: when a key is live in the LocalTier (with a truthy value) and also
present in the RemoteTier with a different value, the lookup answers from
the LocalTier (`HIT-MEMORY`) with the local value, performing zero remote
queries. -/
theorem localTier_precedence (ttl now : Nat) (req : Request) (mem mem2 : MemCache)
    (redis : RedisState) (v w : Json)
    (hg : req.method = "GET")
    (hmem : mem.get now (CacheManager.generateKey req) = (some v, mem2))
    (htv : truthy v = true)
    (hred : RedisManager.get redis (CacheManager.generateKey req) = some w)
    (hne : w ≠ v) :
    CacheManager.cache ttl true CacheManager.noFaults req mem redis now
      = ⟨CacheManager.MWOutcome.respond v "HIT-MEMORY", mem2, redis, 0⟩ := by
  simp [CacheManager.cache, CacheManager.noFaults, hg, hmem, htv]

theorem localTier_precedence_witness :
    reqW.method = "GET" ∧
    memW.get 0 keyW = (some (Json.str "local"), memW) ∧
    truthy (Json.str "local") = true ∧
    RedisManager.get redisW keyW = some (Json.str "remote") ∧
    Json.str "remote" ≠ Json.str "local" ∧
    CacheManager.cache 300 true CacheManager.noFaults reqW memW redisW 0
      = ⟨CacheManager.MWOutcome.respond (Json.str "local") "HIT-MEMORY", memW, redisW, 0⟩ :=
  ⟨rfl, rfl, rfl, rfl, by simp,
    localTier_precedence 300 0 reqW memW memW redisW (Json.str "local") (Json.str "remote")
      rfl rfl rfl rfl (by simp)⟩

/-- C4: on a key absent from the LocalTier whose RemoteTier lookup hits (a
truthy value), the middleware answers `HIT-REDIS` and backfills the
LocalTier, so an identical lookup immediately afterwards (same instant, no
intervening eviction or invalidation, positive TTL) is served from the
LocalTier with the marker `HIT-MEMORY` and no remote query. -/
theorem remote_hit_backfills_localTier (ttl now : Nat) (req : Request)
    (mem mem1 : MemCache) (redis : RedisState) (v : Json)
    (hg : req.method = "GET") (ht : 0 < ttl)
    (hmem : mem.get now (CacheManager.generateKey req) = (none, mem1))
    (hred : RedisManager.get redis (CacheManager.generateKey req) = some v)
    (htv : truthy v = true) :
    CacheManager.cache ttl true CacheManager.noFaults req mem redis now
      = ⟨CacheManager.MWOutcome.respond v "HIT-REDIS",
          mem1.set (CacheManager.generateKey req) v ttl now, redis, 1⟩ ∧
    CacheManager.cache ttl true CacheManager.noFaults req
        (mem1.set (CacheManager.generateKey req) v ttl now) redis now
      = ⟨CacheManager.MWOutcome.respond v "HIT-MEMORY",
          mem1.set (CacheManager.generateKey req) v ttl now, redis, 0⟩ := by
  constructor
  · simp [CacheManager.cache, CacheManager.noFaults, hg, hmem,
      CacheManager.cache.redisStep, hred, htv]
  · simp [CacheManager.cache, CacheManager.noFaults, hg, htv,
      MemCache.get_set mem1 (CacheManager.generateKey req) v ttl now ht]

theorem remote_hit_backfills_localTier_witness :
    reqW.method = "GET" ∧ 0 < 300 ∧
    memW2.get 0 keyW = (none, memW2) ∧
    RedisManager.get redisW keyW = some (Json.str "remote") ∧
    truthy (Json.str "remote") = true ∧
    (CacheManager.cache 300 true CacheManager.noFaults reqW memW2 redisW 0
      = ⟨CacheManager.MWOutcome.respond (Json.str "remote") "HIT-REDIS",
          memW2.set keyW (Json.str "remote") 300 0, redisW, 1⟩ ∧
     CacheManager.cache 300 true CacheManager.noFaults reqW
        (memW2.set keyW (Json.str "remote") 300 0) redisW 0
      = ⟨CacheManager.MWOutcome.respond (Json.str "remote") "HIT-MEMORY",
          memW2.set keyW (Json.str "remote") 300 0, redisW, 0⟩) :=
  ⟨rfl, by decide, rfl, rfl, rfl,
    remote_hit_backfills_localTier 300 0 reqW memW2 memW2 redisW (Json.str "remote")
      rfl (by decide) rfl rfl rfl⟩

/-- C10: a cached falsy payload (here `null` locally and `0` remotely)
never produces a cache hit: both tier results fail the truthiness test, the
response is marked `MISS` and the origin handler is invoked again (the
response emission is wrapped for storing). -/
theorem falsy_values_never_hit (ttl now : Nat) (req : Request)
    (mem mem1 : MemCache) (redis : RedisState) (u w : Json)
    (hg : req.method = "GET")
    (hmem : mem.get now (CacheManager.generateKey req) = (some u, mem1))
    (hu : truthy u = false)
    (hred : RedisManager.get redis (CacheManager.generateKey req) = some w)
    (hw : truthy w = false) :
    CacheManager.cache ttl true CacheManager.noFaults req mem redis now
      = ⟨CacheManager.MWOutcome.nextWrapped (CacheManager.generateKey req) "MISS",
          mem1, redis, 1⟩ := by
  simp [CacheManager.cache, CacheManager.noFaults, hg, hmem, hu,
    CacheManager.cache.redisStep, hred, hw]

theorem falsy_values_never_hit_witness :
    reqW.method = "GET" ∧
    memWF.get 0 keyW = (some Json.null, memWF) ∧
    truthy Json.null = false ∧
    RedisManager.get redisWF keyW = some (Json.num 0) ∧
    truthy (Json.num 0) = false ∧
    CacheManager.cache 300 true CacheManager.noFaults reqW memWF redisWF 0
      = ⟨CacheManager.MWOutcome.nextWrapped keyW "MISS", memWF, redisWF, 1⟩ :=
  ⟨rfl, rfl, rfl, rfl, rfl,
    falsy_values_never_hit 300 0 reqW memWF memWF redisWF Json.null (Json.num 0)
      rfl rfl rfl rfl rfl⟩

/-- C2 (amended): an error raised inside the middleware's `try` block — the
lookup and tier-access steps — is caught at the middleware boundary and
`next()` is invoked, with both tiers untouched and no error response;
key derivation, however, runs before the `try` block (see the
counterexample). -/
theorem cache_errors_inside_try_call_next (ttl : Nat) (useMemory : Bool)
    (f : CacheManager.Faults) (req : Request) (mem : MemCache) (redis : RedisState)
    (now : Nat)
    (hg : req.method = "GET") (hk : f.keygen = false) (hl : f.lookup = true) :
    CacheManager.cache ttl useMemory f req mem redis now
      = ⟨CacheManager.MWOutcome.passNext, mem, redis, 0⟩ := by
  simp [CacheManager.cache, hg, hk, hl]

theorem cache_errors_inside_try_call_next_witness :
    reqW.method = "GET" ∧
    (⟨false, true⟩ : CacheManager.Faults).keygen = false ∧
    (⟨false, true⟩ : CacheManager.Faults).lookup = true ∧
    CacheManager.cache 300 true ⟨false, true⟩ reqW memW redisW 0
      = ⟨CacheManager.MWOutcome.passNext, memW, redisW, 0⟩ :=
  ⟨rfl, rfl, rfl,
    cache_errors_inside_try_call_next 300 true ⟨false, true⟩ reqW memW redisW 0 rfl rfl rfl⟩

/-- C2 (counterexample): `generateKey` runs before the `try` block, so a
key-derivation error (an unserializable query making `JSON.stringify`
throw) is NOT caught: the middleware neither calls `next()` nor responds —
the error propagates, contradicting the claim that any error of the cache
subsystem, key derivation included, is caught and turned into `next()`. -/
theorem keygen_error_propagates_uncaught :
    (CacheManager.cache 300 true ⟨true, false⟩ reqW memW redisW 0).outcome
        = CacheManager.MWOutcome.raise ∧
    CacheManager.MWOutcome.raise ≠ CacheManager.MWOutcome.passNext :=
  ⟨rfl, by simp⟩

/-- C1: with the backing network store unreachable (every client call
raises), `RedisManager.get` returns `null`, `RedisManager.set` returns
`false`, `RedisManager.del` returns `false` — none of them propagates the
error and the remote store state is untouched — while the LocalTier keeps
storing and serving: the miss-path store wrapper still writes the payload
into the memory tier and a `get` at the same instant serves it. -/
theorem remoteTier_soft_failure (c : RedisState) (k key : String) (v d : Json)
    (t ttl now : Nat) (mem : MemCache)
    (hur : c.reachable = false) (ht : 0 < ttl) :
    RedisManager.get c k = none ∧
    RedisManager.set c k v t = (false, c) ∧
    RedisManager.del c k = (false, c) ∧
    (CacheManager.storeOnEmit key ttl true d mem c now).2 = c ∧
    ((CacheManager.storeOnEmit key ttl true d mem c now).1.get now key).1 = some d := by
  refine ⟨?_, ?_, ?_, ?_, ?_⟩
  · rw [RedisManager.get, if_pos hur]
  · rw [RedisManager.set, if_pos hur]
  · rw [RedisManager.del, if_pos hur]
  · simp [CacheManager.storeOnEmit, RedisManager.set, hur]
  · simp [CacheManager.storeOnEmit,
      MemCache.get_set mem key d ttl now ht]

theorem remoteTier_soft_failure_witness :
    redisDown.reachable = false ∧ 0 < 300 ∧
    (RedisManager.get redisDown keyW = none ∧
     RedisManager.set redisDown keyW (Json.str "x") 60 = (false, redisDown) ∧
     RedisManager.del redisDown keyW = (false, redisDown) ∧
     (CacheManager.storeOnEmit keyW 300 true (Json.str "x") memW2 redisDown 0).2 = redisDown ∧
     ((CacheManager.storeOnEmit keyW 300 true (Json.str "x") memW2 redisDown 0).1.get 0 keyW).1
        = some (Json.str "x")) :=
  ⟨rfl, by decide,
    remoteTier_soft_failure redisDown keyW keyW (Json.str "x") (Json.str "x") 60 300 0 memW2
      rfl (by decide)⟩

/-- C5 (counterexample): two GET requests for the same path with the same
set of query parameters — supplied in different order — and the same
(anonymous) caller receive different cache keys: the key uses
`originalUrl` and the insertion-order `JSON.stringify` of the query object,
neither of which is a canonical, stably ordered serialization. -/
theorem generateKey_query_order_sensitive :
    reqQ1.method = reqQ2.method ∧
    reqQ1.user = reqQ2.user ∧
    reqQ1.query.Perm reqQ2.query ∧
    CacheManager.generateKey reqQ1 ≠ CacheManager.generateKey reqQ2 :=
  ⟨rfl, rfl, by decide, by decide⟩

/-- C5 (amended): the key deriver is deterministic on the request fields it
reads — method, `originalUrl`, the query object in its given order, and the
caller — and concatenates them in fixed order with the sentinel
`anonymous` for unauthenticated requests; it does NOT canonicalize the
order of query parameters. -/
theorem generateKey_deterministic (r1 r2 : Request)
    (hm : r1.method = r2.method) (hu : r1.originalUrl = r2.originalUrl)
    (hq : r1.query = r2.query) (hus : r1.user = r2.user) :
    CacheManager.generateKey r1 = CacheManager.generateKey r2 ∧
    (r1.user = none →
      CacheManager.generateKey r1
        = "api:" ++ r1.method ++ ":" ++ r1.originalUrl ++ ":"
            ++ serialize (queryJson r1.query) ++ ":" ++ "anonymous") := by
  constructor
  · cases r1; cases r2
    simp_all [CacheManager.generateKey]
  · intro hnone
    simp only [CacheManager.generateKey, hnone]

theorem generateKey_deterministic_witness :
    reqQ1.method = reqQ1.method ∧ reqQ1.originalUrl = reqQ1.originalUrl ∧
    reqQ1.query = reqQ1.query ∧ reqQ1.user = reqQ1.user ∧
    (CacheManager.generateKey reqQ1 = CacheManager.generateKey reqQ1 ∧
     (reqQ1.user = none →
        CacheManager.generateKey reqQ1
          = "api:" ++ reqQ1.method ++ ":" ++ reqQ1.originalUrl ++ ":"
              ++ serialize (queryJson reqQ1.query) ++ ":" ++ "anonymous")) :=
  ⟨rfl, rfl, rfl, rfl, generateKey_deterministic reqQ1 reqQ1 rfl rfl rfl rfl⟩

/-! ## Capacity eviction -/

theorem foldl_set_entries (ttl now : Nat) :
    ∀ (ps : List (String × Json)) (m : MemCache),
      ((m.entries.map Prod.fst) ++ ps.map Prod.fst).Nodup →
      m.entries.length + ps.length ≤ m.maxKeys →
      (ps.foldl (fun acc p => acc.set p.1 p.2 ttl now) m).entries
          = m.entries ++ ps.map (fun p => (p.1, (⟨p.2, now, ttl⟩ : Entry))) ∧
      (ps.foldl (fun acc p => acc.set p.1 p.2 ttl now) m).maxKeys = m.maxKeys := by
  intro ps
  induction ps with
  | nil => intro m _ _; simp
  | cons p ps ih =>
      intro m hnd hlen
      obtain ⟨pk, pv⟩ := p
      simp only [List.length_cons] at hlen
      have hfresh : lookupEntry m.entries pk = none := by
        rw [lookupEntry_eq_none_iff]
        intro hmem
        obtain ⟨_, _, hdisj⟩ := List.nodup_append.mp hnd
        exact hdisj hmem (by simp)
      have hcap : ¬(m.maxKeys ≤ m.entries.length) := by omega
      have hstep1 : (MemCache.set m pk pv ttl now).entries
          = m.entries ++ [(pk, (⟨pv, now, ttl⟩ : Entry))] := by
        rw [MemCache.set, if_neg (by simp [hfresh]), if_neg hcap]
      have hstep2 : (MemCache.set m pk pv ttl now).maxKeys = m.maxKeys := by
        rw [MemCache.set, if_neg (by simp [hfresh]), if_neg hcap]
      rw [List.foldl_cons]
      have hnd2 : (((MemCache.set m pk pv ttl now).entries.map Prod.fst)
          ++ ps.map Prod.fst).Nodup := by
        rw [hstep1]
        simpa [List.append_assoc] using hnd
      have hlen2 : (MemCache.set m pk pv ttl now).entries.length + ps.length
          ≤ (MemCache.set m pk pv ttl now).maxKeys := by
        rw [hstep1, hstep2]
        simp only [List.length_append, List.length_cons, List.length_nil]
        omega
      obtain ⟨hih1, hih2⟩ := ih (MemCache.set m pk pv ttl now) hnd2 hlen2
      constructor
      · rw [hih1, hstep1]
        simp [List.append_assoc]
      · rw [hih2, hstep2]

/-- C6: starting from an empty LocalTier of capacity `N`, a sequence of
`N + 1` `set` calls with pairwise distinct keys all succeed; the final
insertion happens at capacity and evicts exactly one prior entry — the
oldest-inserted one (the first key) — leaving exactly `N` entries whose
keys are, in order, all the inserted keys except the first. -/
theorem capacity_eviction_oldest_first (N ttl now : Nat) (ps : List (String × Json))
    (hN : 0 < N) (hlen : ps.length = N + 1) (hnd : (ps.map Prod.fst).Nodup) :
    ((ps.foldl (fun acc p => acc.set p.1 p.2 ttl now) (⟨[], N⟩ : MemCache)).entries.map Prod.fst
        = (ps.map Prod.fst).drop 1) ∧
    (ps.foldl (fun acc p => acc.set p.1 p.2 ttl now) (⟨[], N⟩ : MemCache)).entries.length = N := by
  have hne : ps ≠ [] := by intro h; rw [h] at hlen; simp at hlen
  obtain ⟨q, pl, hq⟩ : ∃ q pl, ps = q ++ [pl] :=
    ⟨ps.dropLast, ps.getLast hne, (List.dropLast_append_getLast hne).symm⟩
  subst hq
  have hqlen : q.length = N := by
    rw [List.length_append, List.length_singleton] at hlen
    omega
  obtain ⟨hnd1, _, hdisj⟩ := List.nodup_append.mp (by simpa using hnd)
  obtain ⟨he, hmax⟩ := foldl_set_entries ttl now q ⟨[], N⟩ (by simpa using hnd1)
    (by simp [hqlen])
  rw [List.foldl_append, List.foldl_cons, List.foldl_nil]
  set M := q.foldl (fun acc p => acc.set p.1 p.2 ttl now) (⟨[], N⟩ : MemCache) with hM
  have hkeys : M.entries.map Prod.fst = q.map Prod.fst := by
    rw [he]; simp
  have hlook : lookupEntry M.entries pl.1 = none := by
    rw [lookupEntry_eq_none_iff, hkeys]
    exact fun h => hdisj h (by simp)
  have hcap : M.maxKeys ≤ M.entries.length := by
    rw [hmax, he]; simp [hqlen]
  obtain ⟨plk, plv⟩ := pl
  rw [MemCache.set, if_neg (by simp [hlook]), if_pos hcap]
  constructor
  · simp only [List.map_append, List.map_cons, List.map_nil]
    rw [List.drop_append_of_le_length (by simp [hqlen]; omega)]
    congr 1
    rw [he]
    simp [Function.comp_def]
  · rw [he]
    simp [hqlen]
    omega

theorem capacity_eviction_oldest_first_witness :
    0 < 2 ∧
    ([("a", Json.num 1), ("b", Json.num 2), ("c", Json.num 3)]
      : List (String × Json)).length = 2 + 1 ∧
    (([("a", Json.num 1), ("b", Json.num 2), ("c", Json.num 3)]
      : List (String × Json)).map Prod.fst).Nodup ∧
    ((([("a", Json.num 1), ("b", Json.num 2), ("c", Json.num 3)]
        : List (String × Json)).foldl
          (fun acc p => acc.set p.1 p.2 300 0) (⟨[], 2⟩ : MemCache)).entries.map Prod.fst
        = (([("a", Json.num 1), ("b", Json.num 2), ("c", Json.num 3)]
            : List (String × Json)).map Prod.fst).drop 1 ∧
     (([("a", Json.num 1), ("b", Json.num 2), ("c", Json.num 3)]
        : List (String × Json)).foldl
          (fun acc p => acc.set p.1 p.2 300 0) (⟨[], 2⟩ : MemCache)).entries.length = 2) :=
  ⟨by decide, rfl, by decide,
    capacity_eviction_oldest_first 2 300 0 _ (by decide) rfl (by decide)⟩

/-! ## Invalidation -/

theorem invalidate_fold_entries (p : String) :
    ∀ (ks : List String) (m : MemCache),
      (ks.foldl (fun acc k => if CacheManager.jsIncludes k p then acc.del k else acc) m).entries
        = m.entries.filter (fun q => !(CacheManager.jsIncludes q.1 p && ks.contains q.1)) ∧
      (ks.foldl (fun acc k => if CacheManager.jsIncludes k p then acc.del k else acc) m).maxKeys
        = m.maxKeys := by
  intro ks
  induction ks with
  | nil =>
      intro m
      refine ⟨?_, rfl⟩
      symm
      apply List.filter_eq_self.mpr
      intro q hq
      simp
  | cons k ks ih =>
      intro m
      rw [List.foldl_cons]
      by_cases hk : CacheManager.jsIncludes k p = true
      · rw [if_pos hk]
        obtain ⟨h1, h2⟩ := ih (m.del k)
        refine ⟨?_, by rw [h2]; rfl⟩
        rw [h1,
          show (MemCache.del m k).entries
              = m.entries.filter (fun q => !(q.1 = k : Bool)) from rfl,
          List.filter_filter]
        apply List.filter_congr
        intro q hq
        by_cases hqk : q.1 = k
        · simp [hqk, hk, List.contains_cons]
        · simp [hqk, List.contains_cons]
      · rw [if_neg hk]
        have hkf : CacheManager.jsIncludes k p = false := by
          revert hk; cases CacheManager.jsIncludes k p <;> simp
        obtain ⟨h1, h2⟩ := ih m
        refine ⟨?_, by rw [h2]⟩
        rw [h1]
        apply List.filter_congr
        intro q hq
        by_cases hqk : q.1 = k
        · simp [hqk, hkf, List.contains_cons]
        · simp [hqk, List.contains_cons]

/-- C7: after `invalidatePattern(p)`, no LocalTier key containing `p` as a
substring remains; the surviving entries are exactly the original ones
whose key does not contain `p`, kept unchanged and in order; and the
RemoteTier state is left entirely unchanged (remote pattern deletion is
not performed). -/
theorem invalidatePattern_scope (mem : MemCache) (redis : RedisState) (p : String) :
    ((CacheManager.invalidatePattern mem redis p).1.entries.all
        (fun q => !(CacheManager.jsIncludes q.1 p)) = true) ∧
    ((CacheManager.invalidatePattern mem redis p).1.entries
        = mem.entries.filter (fun q => !(CacheManager.jsIncludes q.1 p))) ∧
    ((CacheManager.invalidatePattern mem redis p).2 = redis) := by
  have hmain : (CacheManager.invalidatePattern mem redis p).1.entries
      = mem.entries.filter (fun q => !(CacheManager.jsIncludes q.1 p)) := by
    show (mem.keys.foldl (fun m2 k => if CacheManager.jsIncludes k p then m2.del k else m2) mem).entries = _
    rw [(invalidate_fold_entries p mem.keys mem).1]
    apply List.filter_congr
    intro q hq
    have hqc : mem.keys.contains q.1 = true := by
      simp only [MemCache.keys]
      exact List.elem_eq_true_of_mem (List.mem_map_of_mem Prod.fst hq)
    rw [hqc, Bool.and_true]
  refine ⟨?_, hmain, rfl⟩
  rw [hmain]
  apply List.all_eq_true.mpr
  intro q hq
  exact (List.mem_filter.mp hq).2
